import Mathlib

/-!
Shallow embedding of the vector_math native library
(src/native/vector_math/src/lib.rs and src/native/vector_math/src/hnsw.rs).

Machine floats (f32/f64) are modelled by exact arithmetic: rationals for the
quantization and Hamming layers, reals where a square root appears (cosine).
Machine integers are modelled by Nat/Int with explicit two-complement
conversions (toI8 / i8ToU8) where the code reinterprets bytes as signed.
The Rust cast from a float to i8 truncates toward zero, modelled by ratTrunc.
-/

/-- Error atoms returned by the NIF layer (mod atoms in lib.rs). -/
inductive VmError
  | empty_vector
  | empty_corpus
  | dimension_mismatch
  deriving DecidableEq

/-- Result of a NIF call: the tuple tagged ok, or the tuple tagged error. -/
inductive VRes (α : Type)
  | ok (val : α)
  | err (e : VmError)
  deriving DecidableEq

/-- Reinterpret an unsigned byte as a signed 8-bit value (Rust: x as i8). -/
def toI8 (b : ℕ) : ℤ :=
  if b < 128 then (b : ℤ) else (b : ℤ) - 256

/-- Store a signed 8-bit value as its unsigned byte representation
(Rust: x as u8, two-complement). -/
def i8ToU8 (z : ℤ) : ℕ :=
  (z % 256).toNat

/-- Truncation toward zero, the semantics of the Rust float-to-int as cast
(after the clamp has put the value in range). -/
def ratTrunc (q : ℚ) : ℤ :=
  if 0 ≤ q then ⌊q⌋ else ⌈q⌉

/-- Rust f32 clamp(lo, hi). -/
def clampQ (x lo hi : ℚ) : ℚ :=
  if x < lo then lo else if hi < x then hi else x

/-- Fold of f32 min over the whole vector, seeded with positive infinity in
the source; on a non-empty list this equals the fold over the tail seeded
with the head, because min(inf, x) = x. -/
def minVal : List ℚ → ℚ
  | [] => 0
  | x :: xs => xs.foldl min x

/-- Fold of f32 max over the whole vector, seeded with negative infinity in
the source; same normal form as minVal. -/
def maxVal : List ℚ → ℚ
  | [] => 0
  | x :: xs => xs.foldl max x

/-- scale from quantize_int8: range / 255, or 1.0 for a zero range. -/
def qscale (v : List ℚ) : ℚ :=
  if maxVal v - minVal v = 0 then 1 else (maxVal v - minVal v) / 255

/-- One quantized byte of quantize_int8: normalize by scale and offset,
shift by 128, clamp to the i8 range, cast (truncating) to i8, store as u8. -/
def qbyte (v : List ℚ) (x : ℚ) : ℕ :=
  let normalized := if qscale v = 0 then 0 else (x - minVal v) / qscale v
  i8ToU8 (ratTrunc (clampQ (normalized - 128) (-128) 127))

/-- quantize_int8 from lib.rs: min-max linear quantization of a float vector
to one byte per element, returning the bytes with scale and offset. -/
def quantize_int8 (input : List ℚ) : VRes (List ℕ × ℚ × ℚ) :=
  if input.isEmpty then .err .empty_vector
  else .ok (input.map (qbyte input), qscale input, minVal input)

/-- dequantize_int8 from lib.rs: reinterpret each byte as signed and invert
the affine map: (signed + 128) * scale + offset. -/
def dequantize_int8 (binary : List ℕ) (scale offset : ℚ) : VRes (List ℚ) :=
  if binary.isEmpty then .err .empty_vector
  else .ok (binary.map (fun x => ((toI8 x : ℚ) + 128) * scale + offset))

/-- hamming_to_similarity from lib.rs: 1 - distance / total_bits, with an
empty_vector error when total_bits is zero. -/
def hamming_to_similarity (distance total_bits : ℕ) : VRes ℚ :=
  if total_bits = 0 then .err .empty_vector
  else .ok (1 - (distance : ℚ) / (total_bits : ℚ))

-- Facts about the fold-based minimum and maximum.

theorem foldl_min_le (xs : List ℚ) (a : ℚ) :
    xs.foldl min a ≤ a ∧ ∀ x ∈ xs, xs.foldl min a ≤ x := by
  induction xs generalizing a with
  | nil => simp
  | cons y ys ih =>
    have h := ih (min a y)
    refine ⟨le_trans h.1 (min_le_left a y), ?_⟩
    intro x hx
    rcases List.mem_cons.mp hx with rfl | hx
    · exact le_trans h.1 (min_le_right a x)
    · exact h.2 x hx

theorem foldl_min_mem (xs : List ℚ) (a : ℚ) :
    xs.foldl min a = a ∨ xs.foldl min a ∈ xs := by
  induction xs generalizing a with
  | nil => simp
  | cons y ys ih =>
    simp only [List.foldl_cons]
    rcases ih (min a y) with h | h
    · rcases min_choice a y with hm | hm
      · exact Or.inl (by rw [h, hm])
      · exact Or.inr (by rw [h, hm]; exact List.mem_cons_self y ys)
    · exact Or.inr (List.mem_cons_of_mem y h)

theorem le_foldl_max (xs : List ℚ) (a : ℚ) :
    a ≤ xs.foldl max a ∧ ∀ x ∈ xs, x ≤ xs.foldl max a := by
  induction xs generalizing a with
  | nil => simp
  | cons y ys ih =>
    have h := ih (max a y)
    refine ⟨le_trans (le_max_left a y) h.1, ?_⟩
    intro x hx
    rcases List.mem_cons.mp hx with rfl | hx
    · exact le_trans (le_max_right a x) h.1
    · exact h.2 x hx

theorem foldl_max_mem (xs : List ℚ) (a : ℚ) :
    xs.foldl max a = a ∨ xs.foldl max a ∈ xs := by
  induction xs generalizing a with
  | nil => simp
  | cons y ys ih =>
    simp only [List.foldl_cons]
    rcases ih (max a y) with h | h
    · rcases max_choice a y with hm | hm
      · exact Or.inl (by rw [h, hm])
      · exact Or.inr (by rw [h, hm]; exact List.mem_cons_self y ys)
    · exact Or.inr (List.mem_cons_of_mem y h)

theorem minVal_le {v : List ℚ} {x : ℚ} (hx : x ∈ v) : minVal v ≤ x := by
  cases v with
  | nil => cases hx
  | cons y ys =>
    rcases List.mem_cons.mp hx with rfl | hx
    · exact (foldl_min_le ys x).1
    · exact (foldl_min_le ys y).2 x hx

theorem minVal_mem {v : List ℚ} (hv : v ≠ []) : minVal v ∈ v := by
  cases v with
  | nil => exact absurd rfl hv
  | cons y ys =>
    rcases foldl_min_mem ys y with h | h
    · exact List.mem_cons.mpr (Or.inl (by simpa [minVal] using h))
    · exact List.mem_cons_of_mem y (by simpa [minVal] using h)

theorem le_maxVal {v : List ℚ} {x : ℚ} (hx : x ∈ v) : x ≤ maxVal v := by
  cases v with
  | nil => cases hx
  | cons y ys =>
    rcases List.mem_cons.mp hx with rfl | hx
    · exact (le_foldl_max ys x).1
    · exact (le_foldl_max ys y).2 x hx

theorem maxVal_mem {v : List ℚ} (hv : v ≠ []) : maxVal v ∈ v := by
  cases v with
  | nil => exact absurd rfl hv
  | cons y ys =>
    rcases foldl_max_mem ys y with h | h
    · exact List.mem_cons.mpr (Or.inl (by simpa [maxVal] using h))
    · exact List.mem_cons_of_mem y (by simpa [maxVal] using h)

theorem minVal_le_maxVal {v : List ℚ} (hv : v ≠ []) : minVal v ≤ maxVal v :=
  le_trans (minVal_le (minVal_mem hv)) (le_maxVal (minVal_mem hv))

theorem qscale_pos {v : List ℚ} (hv : v ≠ []) : 0 < qscale v := by
  unfold qscale
  split
  · norm_num
  · rename_i h
    have hle := minVal_le_maxVal hv
    have : 0 < maxVal v - minVal v := lt_of_le_of_ne (by linarith) (Ne.symm h)
    positivity

-- Per-element facts about the quantize / dequantize pair.

theorem toI8_i8ToU8 {z : ℤ} (h1 : -128 ≤ z) (h2 : z ≤ 127) :
    toI8 (i8ToU8 z) = z := by
  unfold toI8 i8ToU8
  split <;> omega

theorem ratTrunc_bounds {y : ℚ} (h1 : -128 ≤ y) (h2 : y ≤ 127) :
    -128 ≤ ratTrunc y ∧ ratTrunc y ≤ 127 := by
  unfold ratTrunc
  split
  · rename_i h0
    constructor
    · have := Int.floor_nonneg.mpr h0
      omega
    · exact_mod_cast Int.floor_le_floor h2 |>.trans_eq (by norm_num)
  · rename_i h0
    constructor
    · have hle : ⌈(-128 : ℚ)⌉ ≤ ⌈y⌉ := Int.ceil_le_ceil h1
      have h128 : ⌈(-128 : ℚ)⌉ = -128 := by
        rw [show ((-128 : ℚ)) = ((-128 : ℤ) : ℚ) by norm_num]
        exact Int.ceil_intCast _
      omega
    · have : ⌈y⌉ ≤ ⌈(0 : ℚ)⌉ := Int.ceil_le_ceil (le_of_not_le h0)
      simp at this
      omega

theorem abs_ratTrunc_sub_lt (y : ℚ) : |(ratTrunc y : ℚ) - y| < 1 := by
  unfold ratTrunc
  split
  · rw [abs_sub_comm, abs_of_nonneg (by linarith [Int.floor_le y])]
    linarith [Int.lt_floor_add_one y]
  · rw [abs_of_nonneg (by linarith [Int.le_ceil y])]
    linarith [Int.ceil_lt_add_one y]

theorem clampQ_eq_self {x lo hi : ℚ} (h1 : lo ≤ x) (h2 : x ≤ hi) :
    clampQ x lo hi = x := by
  unfold clampQ
  split
  · linarith
  · split
    · linarith
    · rfl

theorem normalized_range {v : List ℚ} (hv : v ≠ []) {x : ℚ} (hx : x ∈ v) :
    0 ≤ (x - minVal v) / qscale v ∧ (x - minVal v) / qscale v ≤ 255 := by
  have hs := qscale_pos hv
  have hmin : minVal v ≤ x := minVal_le hx
  have hmax : x ≤ maxVal v := le_maxVal hx
  constructor
  · exact div_nonneg (by linarith) (le_of_lt hs)
  · rw [div_le_iff₀ hs]
    unfold qscale
    split
    · rename_i h
      nlinarith
    · rename_i h
      have : (maxVal v - minVal v) / 255 * 255 = maxVal v - minVal v := by
        field_simp
      rw [mul_comm, this]
      linarith

theorem qbyte_dequant {v : List ℚ} (hv : v ≠ []) {x : ℚ} (hx : x ∈ v) :
    |((toI8 (qbyte v x) : ℚ) + 128) * qscale v + minVal v - x| < qscale v := by
  have hs := qscale_pos hv
  have hn := normalized_range hv hx
  have hb : qbyte v x = i8ToU8 (ratTrunc ((x - minVal v) / qscale v - 128)) := by
    simp only [qbyte]
    rw [if_neg (ne_of_gt hs),
      clampQ_eq_self (by linarith [hn.1]) (by linarith [hn.2])]
  have hy1 : (-128 : ℚ) ≤ (x - minVal v) / qscale v - 128 := by linarith [hn.1]
  have hy2 : (x - minVal v) / qscale v - 128 ≤ 127 := by linarith [hn.2]
  have hbounds := ratTrunc_bounds hy1 hy2
  have hret : toI8 (qbyte v x) = ratTrunc ((x - minVal v) / qscale v - 128) := by
    rw [hb]
    exact toI8_i8ToU8 hbounds.1 hbounds.2
  have hxval : ((x - minVal v) / qscale v - 128 + 128) * qscale v + minVal v = x := by
    have hmul : (x - minVal v) / qscale v * qscale v = x - minVal v :=
      div_mul_cancel₀ _ (ne_of_gt hs)
    nlinarith [hmul]
  have habs := abs_ratTrunc_sub_lt ((x - minVal v) / qscale v - 128)
  rw [hret]
  calc |((ratTrunc ((x - minVal v) / qscale v - 128) : ℚ) + 128) * qscale v + minVal v - x|
      = |((ratTrunc ((x - minVal v) / qscale v - 128) : ℚ)
          - ((x - minVal v) / qscale v - 128)) * qscale v| := by
        rw [show ((ratTrunc ((x - minVal v) / qscale v - 128) : ℚ) + 128) * qscale v
            + minVal v - x
            = ((ratTrunc ((x - minVal v) / qscale v - 128) : ℚ)
              - ((x - minVal v) / qscale v - 128)) * qscale v
            + (((x - minVal v) / qscale v - 128 + 128) * qscale v + minVal v - x)
            from by ring, hxval]
        ring_nf
    _ = |(ratTrunc ((x - minVal v) / qscale v - 128) : ℚ)
          - ((x - minVal v) / qscale v - 128)| * qscale v := by
        rw [abs_mul, abs_of_pos hs]
    _ < 1 * qscale v := mul_lt_mul_of_pos_right habs hs
    _ = qscale v := one_mul _

theorem ratTrunc_intCast (z : ℤ) : ratTrunc (z : ℚ) = z := by
  unfold ratTrunc
  split <;> simp

theorem ratTrunc_eval_neg {q : ℚ} {z : ℤ} (hq : ¬ 0 ≤ q) (h1 : (z : ℚ) - 1 < q)
    (h2 : q ≤ (z : ℚ)) : ratTrunc q = z := by
  unfold ratTrunc
  rw [if_neg hq]
  exact Int.ceil_eq_iff.mpr ⟨h1, h2⟩

theorem ratTrunc_eval_nonneg {q : ℚ} {z : ℤ} (hq : 0 ≤ q) (h1 : (z : ℚ) ≤ q)
    (h2 : q < (z : ℚ) + 1) : ratTrunc q = z := by
  unfold ratTrunc
  rw [if_pos hq]
  exact Int.floor_eq_iff.mpr ⟨h1, h2⟩

theorem getD_map_of_lt {α β : Type} (f : α → β) (v : List α) (i : ℕ)
    (hi : i < v.length) (d : α) (d2 : β) :
    (v.map f).getD i d2 = f (v.getD i d) := by
  rw [List.getD_eq_getElem?_getD, List.getD_eq_getElem?_getD, List.getElem?_map,
    List.getElem?_eq_getElem hi]
  simp

theorem quantize_int8_ok {v : List ℚ} (hv : v ≠ []) :
    quantize_int8 v = .ok (v.map (qbyte v), qscale v, minVal v) := by
  simp [quantize_int8, hv]

/-- Helper evaluating qbyte for a vector whose minimum is 0 and scale is 1. -/
theorem qbyte_eval_of {v : List ℚ} {x : ℚ} (hmin : minVal v = 0) (hs : qscale v = 1)
    (hx1 : 0 ≤ x) (hx2 : x ≤ 255) {z : ℤ} (ht : ratTrunc (x - 128) = z) :
    qbyte v x = i8ToU8 z := by
  simp only [qbyte]
  rw [hs, hmin]
  rw [if_neg one_ne_zero]
  rw [show (x - 0) / 1 = x by ring]
  rw [clampQ_eq_self (by linarith) (by linarith), ht]

theorem quantize_eval_ex1 :
    quantize_int8 [0, 2/5, 255] = .ok ([128, 129, 127], 1, 0) := by
  have hne : ([0, 2/5, 255] : List ℚ) ≠ [] := by simp
  have hmin : minVal [0, 2/5, 255] = 0 := by norm_num [minVal, min_def]
  have hmax : maxVal [0, 2/5, 255] = 255 := by norm_num [maxVal, max_def]
  have hs : qscale [0, 2/5, 255] = 1 := by rw [qscale, hmin, hmax]; norm_num
  have hb0 : qbyte [0, 2/5, 255] 0 = 128 := by
    rw [qbyte_eval_of hmin hs le_rfl (by norm_num)
      (z := -128) (by rw [show (0 : ℚ) - 128 = ((-128 : ℤ) : ℚ) by norm_num]; exact ratTrunc_intCast _)]
    decide
  have hb1 : qbyte [0, 2/5, 255] (2/5) = 129 := by
    rw [qbyte_eval_of hmin hs (by norm_num) (by norm_num)
      (z := -127) (ratTrunc_eval_neg (by norm_num) (by norm_num) (by norm_num))]
    decide
  have hb2 : qbyte [0, 2/5, 255] 255 = 127 := by
    rw [qbyte_eval_of hmin hs (by norm_num) le_rfl
      (z := 127) (ratTrunc_eval_nonneg (by norm_num) (by norm_num) (by norm_num))]
    decide
  rw [quantize_int8_ok hne, hs, hmin]
  simp [hb0, hb1, hb2]

theorem quantize_eval_ex2 :
    quantize_int8 [0, 255] = .ok ([128, 127], 1, 0) := by
  have hne : ([0, 255] : List ℚ) ≠ [] := by simp
  have hmin : minVal [0, 255] = 0 := by norm_num [minVal, min_def]
  have hmax : maxVal [0, 255] = 255 := by norm_num [maxVal, max_def]
  have hs : qscale [0, 255] = 1 := by rw [qscale, hmin, hmax]; norm_num
  have hb0 : qbyte [0, 255] 0 = 128 := by
    rw [qbyte_eval_of hmin hs le_rfl (by norm_num)
      (z := -128) (by rw [show (0 : ℚ) - 128 = ((-128 : ℤ) : ℚ) by norm_num]; exact ratTrunc_intCast _)]
    decide
  have hb2 : qbyte [0, 255] 255 = 127 := by
    rw [qbyte_eval_of hmin hs (by norm_num) le_rfl
      (z := 127) (ratTrunc_eval_nonneg (by norm_num) (by norm_num) (by norm_num))]
    decide
  rw [quantize_int8_ok hne, hs, hmin]
  simp [hb0, hb2]

theorem dequantize_eval_ex1 :
    dequantize_int8 [128, 129, 127] 1 0 = .ok [0, 1, 255] := by
  norm_num [dequantize_int8, toI8]

theorem dequantize_int8_ok {b : List ℕ} (hb : b ≠ []) (s o : ℚ) :
    dequantize_int8 b s o = .ok (b.map (fun x => ((toI8 x : ℚ) + 128) * s + o)) := by
  simp [dequantize_int8, hb]

theorem getD_mem_of_lt {α : Type} (v : List α) (i : ℕ) (hi : i < v.length) (d : α) :
    v.getD i d ∈ v := by
  rw [List.getD_eq_getElem?_getD, List.getElem?_eq_getElem hi]
  exact List.getElem_mem hi

/-- Claim C1 (amended): for every non-empty vector, dequantizeInt8 after
quantizeInt8 reproduces each element to within the returned scale (strictly
less than scale), where scale is (max - min) / 255, or 1.0 for a constant
vector. The bound scale / 2 claimed by the spec fails because the float to
i8 cast truncates toward zero instead of rounding to nearest. -/
theorem quantize_dequantize_roundtrip_bound
    (v : List ℚ) (q : List ℕ) (s o : ℚ)
    (hv : v ≠ []) (hq : quantize_int8 v = .ok (q, s, o)) :
    s = (if maxVal v = minVal v then 1 else (maxVal v - minVal v) / 255) ∧
    ∃ w, dequantize_int8 q s o = .ok w ∧ w.length = v.length ∧
      ∀ i, i < v.length → |w.getD i 0 - v.getD i 0| < s := by
  rw [quantize_int8_ok hv, VRes.ok.injEq, Prod.mk.injEq, Prod.mk.injEq] at hq
  obtain ⟨h1, h2, h3⟩ := hq
  subst h1
  subst h2
  subst h3
  have hqne : v.map (qbyte v) ≠ [] := by simp [hv]
  refine ⟨by simp only [qscale, sub_eq_zero], _, dequantize_int8_ok hqne _ _, ?_, ?_⟩
  · simp
  · intro i hi
    rw [getD_map_of_lt (fun x => ((toI8 x : ℚ) + 128) * qscale v + minVal v)
        (v.map (qbyte v)) i (by simpa using hi) 0 0,
      getD_map_of_lt (qbyte v) v i hi 0]
    exact qbyte_dequant hv (getD_mem_of_lt v i hi 0)

/-- Claim C1 counterexample: for v = [0, 2/5, 255] the scale is 1 and the
round-trip reconstructs the middle element as 1, an error of 3/5, which
exceeds scale / 2 = 1/2. -/
theorem quantize_roundtrip_half_scale_cex :
    quantize_int8 [0, 2/5, 255] = .ok ([128, 129, 127], 1, 0) ∧
    dequantize_int8 [128, 129, 127] 1 0 = .ok [0, 1, 255] ∧
    ¬ |(1 : ℚ) - 2/5| ≤ 1 / 2 :=
  ⟨quantize_eval_ex1, dequantize_eval_ex1, by rw [abs_of_nonneg (by norm_num)]; norm_num⟩

/-- Claim C1 witness: the amended round-trip bound instantiated at [0, 255]. -/
theorem quantize_dequantize_roundtrip_bound_witness :
    (1 : ℚ) = (if maxVal [0, 255] = minVal [0, 255] then 1
      else (maxVal [0, 255] - minVal [0, 255]) / 255) ∧
    ∃ w, dequantize_int8 [128, 127] 1 0 = .ok w ∧
      w.length = ([0, 255] : List ℚ).length ∧
      ∀ i, i < ([0, 255] : List ℚ).length →
        |w.getD i 0 - ([0, 255] : List ℚ).getD i 0| < 1 :=
  quantize_dequantize_roundtrip_bound [0, 255] [128, 127] 1 0 (by simp) quantize_eval_ex2

/-- Claim C2 (amended): quantizeInt8 returns offset = min(v),
scale = (max(v) - min(v)) / 255 (or 1.0 when max = min), and each byte is
the unsigned representation of the value obtained by clamping
(v[i] - offset) / scale - 128 to [-128, 127] and truncating toward zero,
the semantics of the Rust float-to-i8 cast: the quantized value is obtained
by truncation, not by rounding as the claim states. -/
theorem quantize_int8_truncation_spec
    (v : List ℚ) (q : List ℕ) (s o : ℚ)
    (hv : v ≠ []) (hq : quantize_int8 v = .ok (q, s, o)) :
    (o ∈ v ∧ ∀ x ∈ v, o ≤ x) ∧
    (maxVal v ∈ v ∧ ∀ x ∈ v, x ≤ maxVal v) ∧
    s = (if maxVal v = o then 1 else (maxVal v - o) / 255) ∧
    q.length = v.length ∧
    ∀ i, i < v.length →
      q.getD i 0 = i8ToU8 (ratTrunc (clampQ ((v.getD i 0 - o) / s - 128) (-128) 127)) := by
  rw [quantize_int8_ok hv, VRes.ok.injEq, Prod.mk.injEq, Prod.mk.injEq] at hq
  obtain ⟨h1, h2, h3⟩ := hq
  subst h1
  subst h2
  subst h3
  refine ⟨⟨minVal_mem hv, fun x hx => minVal_le hx⟩,
          ⟨maxVal_mem hv, fun x hx => le_maxVal hx⟩,
          by simp only [qscale, sub_eq_zero], by simp, ?_⟩
  intro i hi
  rw [getD_map_of_lt (qbyte v) v i hi 0]
  simp only [qbyte]
  rw [if_neg (ne_of_gt (qscale_pos hv))]

/-- Claim C2 counterexample: at v = [0, 2/5, 255] (offset 0, scale 1) the
claimed rounding formula gives round(2/5) - 128 = -128, stored as byte 128,
but the code produces byte 129, the truncation of 2/5 - 128 toward zero. -/
theorem quantize_int8_rounding_cex :
    quantize_int8 [0, 2/5, 255] = .ok ([128, 129, 127], 1, 0) ∧
    i8ToU8 (max (-128) (min (round (((2 : ℚ)/5 - 0) / 1) - 128) 127)) = 128 ∧
    (129 : ℕ) ≠ 128 := by
  refine ⟨quantize_eval_ex1, ?_, by decide⟩
  have hr : round (((2 : ℚ)/5 - 0) / 1) = 0 := by
    rw [show ((2 : ℚ)/5 - 0) / 1 = 2/5 by norm_num, round_eq,
      show (2 : ℚ)/5 + 1/2 = 9/10 by norm_num, Int.floor_eq_iff]
    norm_num
  rw [hr]
  decide

/-- Claim C2 witness: the truncation characterization instantiated at
v = [0, 255], whose quantization is bytes [128, 127], scale 1, offset 0. -/
theorem quantize_int8_truncation_spec_witness :
    ((0 : ℚ) ∈ ([0, 255] : List ℚ) ∧ ∀ x ∈ ([0, 255] : List ℚ), (0 : ℚ) ≤ x) ∧
    (maxVal [0, 255] ∈ ([0, 255] : List ℚ) ∧
      ∀ x ∈ ([0, 255] : List ℚ), x ≤ maxVal [0, 255]) ∧
    (1 : ℚ) = (if maxVal [0, 255] = 0 then 1 else (maxVal [0, 255] - 0) / 255) ∧
    ([128, 127] : List ℕ).length = ([0, 255] : List ℚ).length ∧
    (∀ i, i < ([0, 255] : List ℚ).length →
      ([128, 127] : List ℕ).getD i 0 =
        i8ToU8 (ratTrunc (clampQ ((([0, 255] : List ℚ).getD i 0 - 0) / 1 - 128) (-128) 127))) :=
  quantize_int8_truncation_spec [0, 255] [128, 127] 1 0 (by simp) quantize_eval_ex2

/-- Claim C4 (amended): hammingToSimilarity fails with the empty_vector
error exactly when totalBits is zero; otherwise it returns
1 - distance / totalBits, a value that lies in [0, 1] whenever
distance is at most totalBits. The unconditional range claim fails when
distance exceeds totalBits, where the result is negative. -/
theorem hamming_to_similarity_spec (d t : ℕ) :
    (hamming_to_similarity d t = .err .empty_vector ↔ t = 0) ∧
    (t ≠ 0 → hamming_to_similarity d t = .ok (1 - (d : ℚ) / t) ∧
      (d ≤ t → 0 ≤ 1 - (d : ℚ) / t ∧ 1 - (d : ℚ) / t ≤ 1)) := by
  constructor
  · constructor
    · intro h
      by_contra ht
      simp [hamming_to_similarity, ht] at h
    · intro h
      simp [hamming_to_similarity, h]
  · intro ht
    refine ⟨by simp [hamming_to_similarity, ht], fun hd => ⟨?_, ?_⟩⟩
    · have htq : (0 : ℚ) < t := by
        exact_mod_cast Nat.pos_of_ne_zero ht
      have hle : (d : ℚ) / t ≤ 1 := by
        rw [div_le_one htq]
        exact_mod_cast hd
      linarith
    · have : 0 ≤ (d : ℚ) / t := by positivity
      linarith

/-- Claim C4 counterexample: with distance 10 and totalBits 5 the function
succeeds and returns -1, which is outside [0, 1]. -/
theorem hamming_to_similarity_range_cex :
    hamming_to_similarity 10 5 = .ok (-1) ∧ (-1 : ℚ) < 0 := by
  constructor
  · rw [hamming_to_similarity, if_neg (by norm_num)]
    norm_num
  · norm_num

/-- Claim C4 witness: the amended statement applied at distance 1,
totalBits 2, with the hypotheses discharged. -/
theorem hamming_to_similarity_spec_witness :
    hamming_to_similarity 1 2 = .ok (1 - ((1 : ℕ) : ℚ) / ((2 : ℕ) : ℚ)) ∧
    0 ≤ 1 - ((1 : ℕ) : ℚ) / ((2 : ℕ) : ℚ) ∧
    1 - ((1 : ℕ) : ℚ) / ((2 : ℕ) : ℚ) ≤ 1 := by
  have h := (hamming_to_similarity_spec 1 2).2 (by decide)
  exact ⟨h.1, h.2 (by decide)⟩

-- Binary quantization (to_binary).

/-- Sign condition of the source loop: dimension i contributes a set bit
exactly when it exists and its value is nonnegative (v >= 0.0). -/
def bitCond (v : List ℚ) (i : ℕ) : Bool :=
  ((v[i]?).map (fun x => decide (0 ≤ x))).getD false

/-- Byte j of to_binary, accumulating the or-ed masks 1 <<< bit_idx exactly
as the source loop binary_vec[byte_idx] |= 1 << bit_idx does, restricted to
the indices i with i / 8 = j. -/
def binByte (v : List ℚ) (j : ℕ) : ℕ :=
  (List.range 8).foldl
    (fun acc t => if bitCond v (8 * j + t) then acc ||| (1 <<< t) else acc) 0

/-- to_binary from lib.rs: ceil(D/8) bytes of packed sign bits, LSB first. -/
def to_binary (input : List ℚ) : VRes (List ℕ) :=
  if input.isEmpty then .err .empty_vector
  else .ok ((List.range ((input.length + 7) / 8)).map (binByte input))

/-- LSB-first numeric value of a byte given as its list of bits. -/
def packBits : List Bool → ℕ
  | [] => 0
  | b :: bs => (if b then 1 else 0) + 2 * packBits bs

theorem binByte_eq_packBits (v : List ℚ) (j : ℕ) :
    binByte v j = packBits [bitCond v (8 * j + 0), bitCond v (8 * j + 1),
      bitCond v (8 * j + 2), bitCond v (8 * j + 3), bitCond v (8 * j + 4),
      bitCond v (8 * j + 5), bitCond v (8 * j + 6), bitCond v (8 * j + 7)] := by
  show List.foldl _ 0 [0, 1, 2, 3, 4, 5, 6, 7] = _
  simp only [List.foldl_cons, List.foldl_nil]
  generalize bitCond v (8 * j + 0) = b0
  generalize bitCond v (8 * j + 1) = b1
  generalize bitCond v (8 * j + 2) = b2
  generalize bitCond v (8 * j + 3) = b3
  generalize bitCond v (8 * j + 4) = b4
  generalize bitCond v (8 * j + 5) = b5
  generalize bitCond v (8 * j + 6) = b6
  generalize bitCond v (8 * j + 7) = b7
  revert b0 b1 b2 b3 b4 b5 b6 b7
  decide

theorem testBit_packBits (l : List Bool) (t : ℕ) :
    (packBits l).testBit t = l.getD t false := by
  induction l generalizing t with
  | nil => simp [packBits]
  | cons b bs ih =>
    cases t with
    | zero =>
      cases b <;>
        simp [packBits, Nat.testBit_zero, Nat.add_mul_mod_self_left, Nat.mul_mod_right]
    | succ n =>
      rw [Nat.testBit_succ]
      have hdiv : ((if b then 1 else 0) + 2 * packBits bs) / 2 = packBits bs := by
        cases b <;> simp <;> omega
      rw [show packBits (b :: bs) = (if b then 1 else 0) + 2 * packBits bs from rfl,
        hdiv, ih]
      simp [List.getD]

/-- Claim C8: toBinary of a non-empty vector of dimension D returns exactly
ceil(D/8) = (D+7)/8 bytes, and bit i (byte i/8, LSB-first position i mod 8)
is set iff element i is nonnegative, zero treated as nonnegative. -/
theorem to_binary_bits_spec (v : List ℚ) (hv : v ≠ []) :
    ∃ bs, to_binary v = .ok bs ∧ bs.length = (v.length + 7) / 8 ∧
      ∀ i, i < v.length →
        (bs.getD (i / 8) 0).testBit (i % 8) = decide (0 ≤ v.getD i 0) := by
  refine ⟨(List.range ((v.length + 7) / 8)).map (binByte v),
    by simp [to_binary, hv], by simp, ?_⟩
  intro i hi
  have hj : i / 8 < (v.length + 7) / 8 := by omega
  rw [getD_map_of_lt (binByte v) (List.range ((v.length + 7) / 8)) (i / 8)
    (by simpa using hj) 0 0]
  have hr : (List.range ((v.length + 7) / 8)).getD (i / 8) 0 = i / 8 := by
    rw [List.getD_eq_getElem?_getD, List.getElem?_range hj]
    rfl
  rw [hr, binByte_eq_packBits, testBit_packBits]
  have hcond : ∀ t : ℕ, 8 * (i / 8) + t = i →
      bitCond v (8 * (i / 8) + t) = decide (0 ≤ v.getD i 0) := by
    intro t ht
    rw [ht]
    unfold bitCond
    rw [List.getElem?_eq_getElem hi, List.getD_eq_getElem?_getD,
      List.getElem?_eq_getElem hi]
    rfl
  rcases (by omega : i % 8 = 0 ∨ i % 8 = 1 ∨ i % 8 = 2 ∨ i % 8 = 3 ∨
      i % 8 = 4 ∨ i % 8 = 5 ∨ i % 8 = 6 ∨ i % 8 = 7) with h|h|h|h|h|h|h|h <;>
    rw [h] <;>
    simp only [List.getD_cons_zero, List.getD_cons_succ] <;>
    exact hcond _ (by omega)

/-- Claim C8 witness: the bit characterization applied at the alternating
vector, together with the three concrete examples named by the claim. -/
theorem to_binary_bits_spec_witness :
    (∃ bs, to_binary [1, -1, 1, -1, 1, -1, 1, -1] = .ok bs ∧
      bs.length = (([1, -1, 1, -1, 1, -1, 1, -1] : List ℚ).length + 7) / 8 ∧
      ∀ i, i < ([1, -1, 1, -1, 1, -1, 1, -1] : List ℚ).length →
        (bs.getD (i / 8) 0).testBit (i % 8) =
          decide (0 ≤ ([1, -1, 1, -1, 1, -1, 1, -1] : List ℚ).getD i 0)) ∧
    to_binary [1, 2, 3, 4, 5, 6, 7, 8] = .ok [255] ∧
    to_binary [-1, -2, -3, -4, -5, -6, -7, -8] = .ok [0] ∧
    to_binary [1, -1, 1, -1, 1, -1, 1, -1] = .ok [85] := by
  refine ⟨to_binary_bits_spec [1, -1, 1, -1, 1, -1, 1, -1] (by simp), ?_, ?_, ?_⟩
  · have hb : binByte [1, 2, 3, 4, 5, 6, 7, 8] 0 = 255 := by
      norm_num [binByte, bitCond, List.range_succ]
      decide
    norm_num [to_binary, List.range_succ, hb]
  · have hb : binByte [-1, -2, -3, -4, -5, -6, -7, -8] 0 = 0 := by
      norm_num [binByte, bitCond, List.range_succ]
    norm_num [to_binary, List.range_succ, hb]
  · have hb : binByte [1, -1, 1, -1, 1, -1, 1, -1] 0 = 85 := by
      norm_num [binByte, bitCond, List.range_succ]
      decide
    norm_num [to_binary, List.range_succ, hb]

-- Hamming distance layer.

/-- Popcount of one byte (u8 count_ones; every input here is a byte). -/
def count_ones (x : ℕ) : ℕ :=
  (List.range 8).countP (fun t => x.testBit t)

/-- Hamming distance of two byte strings: popcount of the bytewise xor,
summed (the zip mirrors iter().zip(...) in the source). -/
def hamming_dist (a b : List ℕ) : ℕ :=
  ((a.zip b).map (fun p => count_ones (p.1 ^^^ p.2))).sum

/-- batch_hamming_distance from lib.rs: validation cascade, then the
distance of each corpus entry against the query, in corpus order. -/
def batch_hamming_distance (query : List ℕ) (corpus : List (List ℕ)) : VRes (List ℕ) :=
  if query.isEmpty then .err .empty_vector
  else if corpus.isEmpty then .err .empty_corpus
  else if corpus.any (fun b => b.length != query.length) then .err .dimension_mismatch
  else .ok (corpus.map (fun bin => hamming_dist bin query))

/-- Comparator of top_k_hamming (sort_by_key on the distance, ascending). -/
def distLE (a b : ℕ × ℕ) : Prop := a.2 ≤ b.2

instance : DecidableRel distLE := fun a b => inferInstanceAs (Decidable (a.2 ≤ b.2))

instance : IsTotal (ℕ × ℕ) distLE := ⟨fun a b => le_total a.2 b.2⟩

instance : IsTrans (ℕ × ℕ) distLE := ⟨fun _ _ _ h1 h2 => le_trans h1 h2⟩

/-- top_k_hamming from lib.rs. The select_nth based selection followed by
truncate and sort of the kept prefix is modelled as a stable full sort by
ascending distance followed by take: both return the min(k, n) lowest
distances in ascending order (tie order is unspecified in the source). -/
def top_k_hamming (query : List ℕ) (corpus : List (List ℕ)) (k : ℕ) :
    VRes (List (ℕ × ℕ)) :=
  if query.isEmpty then .err .empty_vector
  else if corpus.isEmpty then .err .empty_corpus
  else if corpus.any (fun b => b.length != query.length) then .err .dimension_mismatch
  else
    let indexed := corpus.enum.map (fun p => (p.1, hamming_dist p.2 query))
    .ok ((List.insertionSort distLE indexed).take (k.min indexed.length))

-- Cosine layer, over exact reals (the source square root forces ℝ).

/-- simd_cosine from lib.rs. The 8-wide chunked accumulation of the source
only regroups additions, which is associative in the exact model, so the
three running sums are written as plain folds over the elements. -/
noncomputable def simd_cosine (a b : List ℝ) : ℝ :=
  let sum_ab := ((a.zip b).map (fun p => p.1 * p.2)).sum
  let sum_a2 := (a.map (fun x => x * x)).sum
  let sum_b2 := (b.map (fun x => x * x)).sum
  let denominator := Real.sqrt sum_a2 * Real.sqrt sum_b2
  if denominator = 0 then 0 else sum_ab / denominator

/-- int8_cosine from lib.rs: bytes reinterpreted as i8, integer (i64)
accumulation of the dot product and squared norms, floating normalization
at the end, with the zero-denominator policy returning 0. -/
noncomputable def int8_cosine (a b : List ℕ) : ℝ :=
  let dot : ℤ := ((a.zip b).map (fun p => toI8 p.1 * toI8 p.2)).sum
  let norm_a : ℤ := (a.map (fun x => toI8 x * toI8 x)).sum
  let norm_b : ℤ := (b.map (fun x => toI8 x * toI8 x)).sum
  let denom := Real.sqrt (norm_a : ℝ) * Real.sqrt (norm_b : ℝ)
  if denom = 0 then 0 else (dot : ℝ) / denom

/-- batch_similarity from lib.rs: validation cascade, then the cosine of
each corpus entry against the query, in corpus order. -/
noncomputable def batch_similarity (query : List ℝ) (corpus : List (List ℝ)) :
    VRes (List ℝ) :=
  if query.isEmpty then .err .empty_vector
  else if corpus.isEmpty then .err .empty_corpus
  else if corpus.any (fun v => v.length != query.length) then .err .dimension_mismatch
  else .ok (corpus.map (fun v => simd_cosine query v))

/-- batch_similarity_int8 from lib.rs: same cascade over byte vectors. -/
noncomputable def batch_similarity_int8 (query : List ℕ) (corpus : List (List ℕ)) :
    VRes (List ℝ) :=
  if query.isEmpty then .err .empty_vector
  else if corpus.isEmpty then .err .empty_corpus
  else if corpus.any (fun b => b.length != query.length) then .err .dimension_mismatch
  else .ok (corpus.map (fun b => int8_cosine query b))

/-- Comparator of the float and int8 top-k sorts: descending by score. -/
def scoreGE (a b : ℕ × ℝ) : Prop := b.2 ≤ a.2

noncomputable instance : DecidableRel scoreGE :=
  fun a b => inferInstanceAs (Decidable (b.2 ≤ a.2))

instance : IsTotal (ℕ × ℝ) scoreGE := ⟨fun a b => le_total b.2 a.2⟩

instance : IsTrans (ℕ × ℝ) scoreGE := ⟨fun _ _ _ h1 h2 => le_trans h2 h1⟩

/-- top_k_similar from lib.rs. The select_nth selection plus sort of the kept
prefix is modelled as a stable full sort by descending score followed by
take, which returns the same min(k, n) best-scoring entries in descending
order (tie order among equal scores is unspecified in the source). -/
noncomputable def top_k_similar (query : List ℝ) (corpus : List (List ℝ)) (k : ℕ) :
    VRes (List (ℕ × ℝ)) :=
  if query.isEmpty then .err .empty_vector
  else if corpus.isEmpty then .err .empty_corpus
  else if corpus.any (fun v => v.length != query.length) then .err .dimension_mismatch
  else
    let indexed := corpus.enum.map (fun p => (p.1, simd_cosine query p.2))
    .ok ((List.insertionSort scoreGE indexed).take (k.min indexed.length))

/-- top_k_similar_int8 from lib.rs, same shape over byte vectors. -/
noncomputable def top_k_similar_int8 (query : List ℕ) (corpus : List (List ℕ)) (k : ℕ) :
    VRes (List (ℕ × ℝ)) :=
  if query.isEmpty then .err .empty_vector
  else if corpus.isEmpty then .err .empty_corpus
  else if corpus.any (fun b => b.length != query.length) then .err .dimension_mismatch
  else
    let indexed := corpus.enum.map (fun p => (p.1, int8_cosine query p.2))
    .ok ((List.insertionSort scoreGE indexed).take (k.min indexed.length))

-- Generic facts about the sort-then-take selection shared by the top-k ops.

theorem sortTake_length {β : Type} (r : (ℕ × β) → (ℕ × β) → Prop) [DecidableRel r]
    (l : List (ℕ × β)) (k : ℕ) :
    ((List.insertionSort r l).take (k.min l.length)).length = k.min l.length := by
  rw [List.length_take, List.length_insertionSort]
  exact Nat.min_eq_left (Nat.min_le_right _ _)

theorem sortTake_sorted {β : Type} (r : (ℕ × β) → (ℕ × β) → Prop) [DecidableRel r]
    [IsTotal (ℕ × β) r] [IsTrans (ℕ × β) r] (l : List (ℕ × β)) (m : ℕ) :
    List.Sorted r ((List.insertionSort r l).take m) :=
  List.Pairwise.sublist (List.take_sublist m _) (List.sorted_insertionSort r l)

theorem sortTake_all {β : Type} (r : (ℕ × β) → (ℕ × β) → Prop) [DecidableRel r]
    (l : List (ℕ × β)) {k : ℕ} (hk : l.length ≤ k) :
    List.Perm ((List.insertionSort r l).take (k.min l.length)) l := by
  have hmin : k.min l.length = l.length := Nat.min_eq_right hk
  rw [hmin, ← List.length_insertionSort r l, List.take_length]
  exact List.perm_insertionSort r l

theorem sortTake_fst {β : Type} (r : (ℕ × β) → (ℕ × β) → Prop) [DecidableRel r]
    (l : List (ℕ × β)) {n : ℕ} (hfst : l.map Prod.fst = List.range n) (m : ℕ) :
    (((List.insertionSort r l).take m).map Prod.fst).Nodup ∧
      ∀ p ∈ (List.insertionSort r l).take m, p.1 < n := by
  have hperm : List.Perm ((List.insertionSort r l).map Prod.fst) (List.range n) := by
    rw [← hfst]
    exact (List.perm_insertionSort r l).map _
  have hnd : ((List.insertionSort r l).map Prod.fst).Nodup :=
    hperm.nodup_iff.mpr (List.nodup_range n)
  constructor
  · have hsub : List.Sublist (((List.insertionSort r l).take m).map Prod.fst)
        ((List.insertionSort r l).map Prod.fst) :=
      (List.take_sublist m _).map _
    exact hnd.sublist hsub
  · intro p hp
    have hmem : p ∈ List.insertionSort r l := (List.take_sublist m _).subset hp
    have hfstmem : p.1 ∈ (List.insertionSort r l).map Prod.fst :=
      List.mem_map_of_mem _ hmem
    have := hperm.mem_iff.mp hfstmem
    simpa [List.mem_range] using this

theorem enum_scored_fst {β γ : Type} (c : List γ) (f : ℕ × γ → β) :
    (c.enum.map (fun p => (p.1, f p))).map Prod.fst = List.range c.length := by
  rw [List.map_map]
  rw [show (Prod.fst ∘ fun p : ℕ × γ => (p.1, f p)) = Prod.fst from rfl]
  exact List.enum_map_fst c

theorem enum_scored_length {β γ : Type} (c : List γ) (f : ℕ × γ → β) :
    (c.enum.map (fun p => (p.1, f p))).length = c.length := by
  rw [List.length_map, List.enum_length]

theorem top_k_similar_ok {q : List ℝ} {c : List (List ℝ)} (hq : q ≠ []) (hc : c ≠ [])
    (hd : ∀ v ∈ c, v.length = q.length) (k : ℕ) :
    top_k_similar q c k = .ok ((List.insertionSort scoreGE
      (c.enum.map (fun p => (p.1, simd_cosine q p.2)))).take
        (k.min (c.enum.map (fun p => (p.1, simd_cosine q p.2))).length)) := by
  have h1 : q.isEmpty = false := by simp [hq]
  have h2 : c.isEmpty = false := by simp [hc]
  have h3 : c.any (fun v => v.length != q.length) = false := by
    rw [List.any_eq_false]
    intro v hv
    simp [hd v hv]
  unfold top_k_similar
  rw [h1, h2, h3]
  simp

/-- Claim C5: for a non-empty query and a non-empty corpus of matching
dimension, topKSimilar returns exactly min(k, corpus length) pairs sorted
descending by similarity; k = 0 gives the empty sequence and k at least
the corpus length gives all scored entries, sorted. -/
theorem top_k_similar_count_sorted
    (query : List ℝ) (corpus : List (List ℝ)) (k : ℕ)
    (hq : query ≠ []) (hc : corpus ≠ [])
    (hd : ∀ v ∈ corpus, v.length = query.length) :
    ∃ res, top_k_similar query corpus k = .ok res ∧
      res.length = k.min corpus.length ∧
      List.Sorted scoreGE res ∧
      (k = 0 → res = []) ∧
      (corpus.length ≤ k →
        List.Perm res (corpus.enum.map (fun p => (p.1, simd_cosine query p.2)))) := by
  have hlen : (corpus.enum.map (fun p => (p.1, simd_cosine query p.2))).length
      = corpus.length := enum_scored_length corpus _
  refine ⟨_, top_k_similar_ok hq hc hd k, ?_, sortTake_sorted scoreGE _ _, ?_, ?_⟩
  · rw [sortTake_length, hlen]
  · intro hk0
    subst hk0
    rw [show Nat.min 0 (corpus.enum.map
        (fun p => (p.1, simd_cosine query p.2))).length = 0 from Nat.zero_min _,
      List.take_zero]
  · intro hk
    rw [← hlen] at hk
    exact sortTake_all scoreGE _ hk

/-- Claim C5 witness: the count and order guarantee applied to the query
[1] over the two-entry corpus [[1], [2]] with k = 5. -/
theorem top_k_similar_count_sorted_witness :
    ∃ res, top_k_similar [1] [[1], [2]] 5 = .ok res ∧
      res.length = Nat.min 5 ([[1], [2]] : List (List ℝ)).length ∧
      List.Sorted scoreGE res ∧
      ((5 : ℕ) = 0 → res = []) ∧
      (([[1], [2]] : List (List ℝ)).length ≤ 5 →
        List.Perm res (([[1], [2]] : List (List ℝ)).enum.map
          (fun p => (p.1, simd_cosine [1] p.2)))) :=
  top_k_similar_count_sorted [1] [[1], [2]] 5 (by simp) (by simp)
    (by intro v hv; simp at hv; rcases hv with rfl | rfl <;> rfl)

/-- Claim C10: every successful top-k call (float, int8 or hamming tier)
returns pairwise distinct indices, each strictly below the corpus length:
every corpus entry contributes at most one result. -/
theorem top_k_indices_distinct_valid :
    (∀ (q : List ℝ) (c : List (List ℝ)) (k : ℕ) (res : List (ℕ × ℝ)),
      top_k_similar q c k = .ok res →
      (res.map Prod.fst).Nodup ∧ ∀ p ∈ res, p.1 < c.length) ∧
    (∀ (q : List ℕ) (c : List (List ℕ)) (k : ℕ) (res : List (ℕ × ℝ)),
      top_k_similar_int8 q c k = .ok res →
      (res.map Prod.fst).Nodup ∧ ∀ p ∈ res, p.1 < c.length) ∧
    (∀ (q : List ℕ) (c : List (List ℕ)) (k : ℕ) (res : List (ℕ × ℕ)),
      top_k_hamming q c k = .ok res →
      (res.map Prod.fst).Nodup ∧ ∀ p ∈ res, p.1 < c.length) := by
  refine ⟨?_, ?_, ?_⟩
  · intro q c k res h
    unfold top_k_similar at h
    split at h
    · exact (VRes.noConfusion h)
    split at h
    · exact (VRes.noConfusion h)
    split at h
    · exact (VRes.noConfusion h)
    rw [VRes.ok.injEq] at h
    subst h
    exact sortTake_fst scoreGE _ (enum_scored_fst c _) _
  · intro q c k res h
    unfold top_k_similar_int8 at h
    split at h
    · exact (VRes.noConfusion h)
    split at h
    · exact (VRes.noConfusion h)
    split at h
    · exact (VRes.noConfusion h)
    rw [VRes.ok.injEq] at h
    subst h
    exact sortTake_fst scoreGE _ (enum_scored_fst c _) _
  · intro q c k res h
    unfold top_k_hamming at h
    split at h
    · exact (VRes.noConfusion h)
    split at h
    · exact (VRes.noConfusion h)
    split at h
    · exact (VRes.noConfusion h)
    rw [VRes.ok.injEq] at h
    subst h
    exact sortTake_fst distLE _ (enum_scored_fst c _) _

/-- Claim C10 witness: the hamming top-k applied at query [1] over corpus
[[2], [3]] with k = 1, a successful call whose result is [(1, 1)]. -/
theorem top_k_indices_distinct_valid_witness :
    ∃ res, top_k_hamming [1] [[2], [3]] 1 = .ok res ∧
      (res.map Prod.fst).Nodup ∧ ∀ p ∈ res, p.1 < ([[2], [3]] : List (List ℕ)).length :=
  ⟨[(1, 1)], by decide,
    top_k_indices_distinct_valid.2.2 [1] [[2], [3]] 1 [(1, 1)] (by decide)⟩

/-- Claim C9: in each batch operation (float or int8 batch cosine, float or
int8 top-k, batch hamming, hamming top-k) the empty-query check takes
precedence over the empty-corpus check, which precedes dimension
validation: an empty query yields empty_vector for every corpus, and a
non-empty query with an empty corpus yields empty_corpus. -/
theorem batch_error_precedence :
    (∀ c : List (List ℝ), batch_similarity [] c = .err .empty_vector) ∧
    (∀ q : List ℝ, q ≠ [] → batch_similarity q [] = .err .empty_corpus) ∧
    (∀ (c : List (List ℝ)) (k : ℕ), top_k_similar [] c k = .err .empty_vector) ∧
    (∀ (q : List ℝ) (k : ℕ), q ≠ [] → top_k_similar q [] k = .err .empty_corpus) ∧
    (∀ c : List (List ℕ), batch_similarity_int8 [] c = .err .empty_vector) ∧
    (∀ q : List ℕ, q ≠ [] → batch_similarity_int8 q [] = .err .empty_corpus) ∧
    (∀ (c : List (List ℕ)) (k : ℕ), top_k_similar_int8 [] c k = .err .empty_vector) ∧
    (∀ (q : List ℕ) (k : ℕ), q ≠ [] → top_k_similar_int8 q [] k = .err .empty_corpus) ∧
    (∀ c : List (List ℕ), batch_hamming_distance [] c = .err .empty_vector) ∧
    (∀ q : List ℕ, q ≠ [] → batch_hamming_distance q [] = .err .empty_corpus) ∧
    (∀ (c : List (List ℕ)) (k : ℕ), top_k_hamming [] c k = .err .empty_vector) ∧
    (∀ (q : List ℕ) (k : ℕ), q ≠ [] → top_k_hamming q [] k = .err .empty_corpus) := by
  refine ⟨?_, ?_, ?_, ?_, ?_, ?_, ?_, ?_, ?_, ?_, ?_, ?_⟩
  · intro c
    simp [batch_similarity]
  · intro q hq
    simp [batch_similarity, hq]
  · intro c k
    simp [top_k_similar]
  · intro q k hq
    simp [top_k_similar, hq]
  · intro c
    simp [batch_similarity_int8]
  · intro q hq
    simp [batch_similarity_int8, hq]
  · intro c k
    simp [top_k_similar_int8]
  · intro q k hq
    simp [top_k_similar_int8, hq]
  · intro c
    simp [batch_hamming_distance]
  · intro q hq
    simp [batch_hamming_distance, hq]
  · intro c k
    simp [top_k_hamming]
  · intro q k hq
    simp [top_k_hamming, hq]

/-- Claim C9 witness: the empty-corpus precedence conjuncts applied to the
non-empty queries [1] (float) and [1] (bytes). -/
theorem batch_error_precedence_witness :
    batch_similarity [1] [] = .err .empty_corpus ∧
    top_k_similar [1] [] 3 = .err .empty_corpus ∧
    batch_similarity_int8 [1] [] = .err .empty_corpus ∧
    top_k_similar_int8 [1] [] 3 = .err .empty_corpus ∧
    batch_hamming_distance [1] [] = .err .empty_corpus ∧
    top_k_hamming [1] [] 3 = .err .empty_corpus := by
  have h := batch_error_precedence
  exact ⟨h.2.1 [1] (by simp), h.2.2.2.1 [1] 3 (by simp),
    h.2.2.2.2.2.1 [1] (by simp), h.2.2.2.2.2.2.2.1 [1] 3 (by simp),
    h.2.2.2.2.2.2.2.2.2.1 [1] (by simp), h.2.2.2.2.2.2.2.2.2.2.2 [1] 3 (by simp)⟩

/-- Claim C6: for equal-length non-empty inputs, simd_cosine and
int8_cosine return exactly 0 (never an undefined value) whenever the
product of the two accumulated squared norms (equivalently, of the two
norms) is exactly zero. -/
theorem cosine_zero_norm_zero :
    (∀ a b : List ℝ, a ≠ [] → a.length = b.length →
      (a.map (fun x => x * x)).sum * (b.map (fun x => x * x)).sum = 0 →
      simd_cosine a b = 0) ∧
    (∀ a b : List ℕ, a ≠ [] → a.length = b.length →
      ((a.map (fun x => toI8 x * toI8 x)).sum : ℤ) *
        (b.map (fun x => toI8 x * toI8 x)).sum = 0 →
      int8_cosine a b = 0) := by
  constructor
  · intro a b _ _ h0
    simp only [simd_cosine]
    rcases mul_eq_zero.mp h0 with h | h <;> rw [h] <;> simp
  · intro a b _ _ h0
    simp only [int8_cosine]
    rcases mul_eq_zero.mp h0 with h | h <;> rw [h] <;> simp

/-- Claim C6 witness: both zero-norm policies applied at the zero vector
against a non-zero mate: simd_cosine [0,0] [3,4] and int8_cosine of the
zero byte string against bytes [1,2] both return 0. -/
theorem cosine_zero_norm_zero_witness :
    simd_cosine [0, 0] [3, 4] = 0 ∧ int8_cosine [0, 0] [1, 2] = 0 :=
  ⟨cosine_zero_norm_zero.1 [0, 0] [3, 4] (by simp) (by simp) (by norm_num),
    cosine_zero_norm_zero.2 [0, 0] [1, 2] (by simp) (by simp) (by decide)⟩

-- HNSW index layer (hnsw.rs). The underlying usearch engine is external to
-- this repository, so it is abstracted as a state type U together with an
-- insertion function uadd; uadd returning none models idx.add returning an
-- engine error, the case the batch loop skips.

/-- State held by the HnswIndex resource: engine state, fixed dimension,
and the is_built flag (hnsw.rs wraps the latter two next to the index). -/
structure HnswIndex (U : Type) where
  under : U
  dimensions : ℕ
  is_built : Bool

/-- Result value of hnsw_add_batch: ok with the count added, or an error. -/
inductive BatchRes
  | ok (count : ℕ)
  | err (e : VmError)
  deriving DecidableEq

/-- One iteration of the hnsw_add_batch insert loop: attempt the engine
add, count a success, skip (continue) on failure. -/
def addStep {U : Type} (uadd : U → ℕ → List ℤ → Option U)
    (acc : U × ℕ) (p : ℕ × List ℤ) : U × ℕ :=
  match uadd acc.1 p.1 p.2 with
  | some u2 => (u2, acc.2 + 1)
  | none => acc

/-- hnsw_add_batch from hnsw.rs: early ok 0 on an empty batch; eager
dimension validation of every entry, failing the whole call on mismatch;
then per-entry insertion under one exclusive scope, skipping failures and
counting successes; the built flag is set after the loop. -/
def hnsw_add_batch {U : Type} (uadd : U → ℕ → List ℤ → Option U)
    (st : HnswIndex U) (entries : List (ℕ × List ℤ)) : HnswIndex U × BatchRes :=
  if entries.isEmpty then (st, .ok 0)
  else if entries.any (fun p => p.2.length != st.dimensions) then
    (st, .err .dimension_mismatch)
  else
    let r := entries.foldl (addStep uadd) (st.under, 0)
    ({ st with under := r.1, is_built := true }, .ok r.2)

/-- Number of entries of the batch that the engine accepts, threading the
engine state exactly as the insert loop does. -/
def countAdded {U : Type} (uadd : U → ℕ → List ℤ → Option U) :
    U → List (ℕ × List ℤ) → ℕ
  | _, [] => 0
  | u, p :: rest =>
    match uadd u p.1 p.2 with
    | some u2 => countAdded uadd u2 rest + 1
    | none => countAdded uadd u rest

theorem foldl_addStep_count {U : Type} (uadd : U → ℕ → List ℤ → Option U)
    (entries : List (ℕ × List ℤ)) (u : U) (c : ℕ) :
    (entries.foldl (addStep uadd) (u, c)).2 = c + countAdded uadd u entries := by
  induction entries generalizing u c with
  | nil => simp [countAdded]
  | cons p rest ih =>
    cases h : uadd u p.1 p.2 with
    | none =>
      simp only [List.foldl_cons, addStep, h, countAdded]
      exact ih u c
    | some u2 =>
      simp only [List.foldl_cons, addStep, h, countAdded]
      rw [ih u2 (c + 1)]
      omega

theorem countAdded_le_length {U : Type} (uadd : U → ℕ → List ℤ → Option U)
    (entries : List (ℕ × List ℤ)) (u : U) :
    countAdded uadd u entries ≤ entries.length := by
  induction entries generalizing u with
  | nil => simp [countAdded]
  | cons p rest ih =>
    cases h : uadd u p.1 p.2 with
    | none =>
      simp only [countAdded, h, List.length_cons]
      exact le_trans (ih u) (Nat.le_succ _)
    | some u2 =>
      simp only [countAdded, h, List.length_cons]
      exact Nat.succ_le_succ (ih u2)

/-- Claim C3 (amended): for every NON-empty entries list whose vectors all
match the index dimension, hnsw_add_batch returns ok with the count of
successfully inserted entries (at most the batch size) and sets the built
flag, no matter how many insertions succeeded, even zero. An empty entries
list instead returns ok 0 through an early return that does not touch the
built flag. -/
theorem hnsw_add_batch_nonempty_built {U : Type}
    (uadd : U → ℕ → List ℤ → Option U) (st : HnswIndex U)
    (entries : List (ℕ × List ℤ))
    (hne : entries ≠ [])
    (hd : ∀ p ∈ entries, p.2.length = st.dimensions) :
    (hnsw_add_batch uadd st entries).1.is_built = true ∧
    (hnsw_add_batch uadd st entries).2 = .ok (countAdded uadd st.under entries) ∧
    countAdded uadd st.under entries ≤ entries.length := by
  have h1 : entries.isEmpty = false := by simp [hne]
  have h2 : entries.any (fun p => p.2.length != st.dimensions) = false := by
    rw [List.any_eq_false]
    intro p hp
    simp [hd p hp]
  have heq : hnsw_add_batch uadd st entries =
      (HnswIndex.mk (entries.foldl (addStep uadd) (st.under, 0)).1 st.dimensions true,
        .ok ((entries.foldl (addStep uadd) (st.under, 0)).2)) := by
    unfold hnsw_add_batch
    rw [h1, h2]
    simp
  rw [heq]
  refine ⟨rfl, ?_, countAdded_le_length uadd entries st.under⟩
  rw [foldl_addStep_count]
  simp

/-- Claim C3 counterexample: on the empty entries list hnsw_add_batch
returns ok 0 through its early return, which precedes the point where the
built flag is set, so a fresh index stays not built. -/
theorem hnsw_add_batch_empty_not_built_cex :
    (hnsw_add_batch (fun (u : ℕ) _ _ => some (u + 1)) ⟨0, 3, false⟩ []).2 = .ok 0 ∧
    (hnsw_add_batch (fun (u : ℕ) _ _ => some (u + 1)) ⟨0, 3, false⟩ []).1.is_built
      = false := by
  constructor <;> rfl

/-- Claim C3 witness: a one-entry batch of the right dimension whose engine
insertion fails; the call reports zero additions yet marks the index
built. -/
theorem hnsw_add_batch_nonempty_built_witness :
    (hnsw_add_batch (fun (_ : ℕ) _ _ => none) ⟨0, 3, false⟩
      [(1, [0, 0, 0])]).1.is_built = true ∧
    (hnsw_add_batch (fun (_ : ℕ) _ _ => none) ⟨0, 3, false⟩ [(1, [0, 0, 0])]).2 =
      .ok (countAdded (fun (_ : ℕ) _ _ => none) 0 [(1, [0, 0, 0])]) ∧
    countAdded (fun (_ : ℕ) _ _ => none) 0 [(1, [0, 0, 0])] ≤
      [((1 : ℕ), ([0, 0, 0] : List ℤ))].length :=
  hnsw_add_batch_nonempty_built _ ⟨0, 3, false⟩ [(1, [0, 0, 0])] (by simp)
    (by intro p hp; simp at hp; subst hp; rfl)

/-- Claim C7: if any entry has a vector whose length differs from the index
dimension, hnsw_add_batch rejects the whole call with dimension_mismatch
before performing any insertion, returning the index state unchanged
(contents, size and built flag included). -/
theorem hnsw_add_batch_dimension_mismatch_aborts {U : Type}
    (uadd : U → ℕ → List ℤ → Option U) (st : HnswIndex U)
    (entries : List (ℕ × List ℤ))
    (hbad : ∃ p ∈ entries, p.2.length ≠ st.dimensions) :
    hnsw_add_batch uadd st entries = (st, .err .dimension_mismatch) := by
  obtain ⟨p, hp, hlen⟩ := hbad
  have hne : entries ≠ [] := by
    rintro rfl
    cases hp
  have h1 : entries.isEmpty = false := by simp [hne]
  have h2 : entries.any (fun q => q.2.length != st.dimensions) = true := by
    rw [List.any_eq_true]
    exact ⟨p, hp, by simp [hlen]⟩
  unfold hnsw_add_batch
  rw [h1, h2]
  simp

/-- Claim C7 witness: a single entry of length 2 against dimension 3 aborts
the whole call and leaves the state untouched. -/
theorem hnsw_add_batch_dimension_mismatch_aborts_witness :
    hnsw_add_batch (fun (u : ℕ) _ _ => some (u + 1)) ⟨0, 3, false⟩ [(5, [1, 2])] =
      (⟨0, 3, false⟩, .err .dimension_mismatch) :=
  hnsw_add_batch_dimension_mismatch_aborts _ _ _
    ⟨(5, [1, 2]), by simp, by simp⟩
